import Mathlib

/-!
Verification development for the mind-map layout repository
(`mind_map_center.py`, `mind_map_horizontal.py`).

The Python sources are shallowly embedded:

* strings are `List Char`; Python `re.sub` calls with the concrete anchored
  and lazy patterns used by `_clean_markdown_text` and
  `_parse_markdown_to_tree` are embedded as explicit character scanners that
  reproduce the leftmost, non-overlapping, lazy matching semantics of those
  particular patterns (`.` never matches a newline, matching restarts right
  after each replacement, and on a failed match the engine advances one
  position);
* Python floats are modelled as exact rationals (`ℚ`) for the horizontal
  layout and angle arithmetic, and as reals (`ℝ`) for the radial layout,
  whose arithmetic genuinely uses `sqrt`/`cos`/`sin`;
* the mutable node dictionaries become an inductive tree `MMNode`, annotation
  passes become recursive functions, and the parser's mutable stack of open
  nodes becomes an explicit list of frames threaded through a fold;
* PIL text measurement (`_measure_text_size`) is an external collaborator and
  is passed in as an oracle `List Char → ℕ → ℝ × ℝ`.

Both source files contain byte-identical copies of `_parse_markdown_to_tree`
and `_clean_markdown_text`; they are embedded once.
-/

namespace MindMap

/-! ## Python character classes

`isPySpace` models Python's `\s` / `str.strip` whitespace on the ASCII range
(space, tab, newline, carriage return, vertical tab, form feed).
`Char.isDigit` models `\d` on the ASCII range. -/

def isPySpace (c : Char) : Bool :=
  c == ' ' || c == '\t' || c == '\n' || c == '\r' ||
  c == Char.ofNat 11 || c == Char.ofNat 12

/-- Python `str.lstrip()` on a character list. -/
def pyLStrip (l : List Char) : List Char := l.dropWhile isPySpace

/-- Python `str.rstrip()` on a character list. -/
def pyRStrip (l : List Char) : List Char := (l.reverse.dropWhile isPySpace).reverse

/-- Python `str.strip()` on a character list. -/
def pyStrip (l : List Char) : List Char := pyRStrip (pyLStrip l)

/-! ## `_clean_markdown_text`

```python
text = re.sub(r'\*\*(.*?)\*\*', r'\1', text)
text = re.sub(r'\*(.*?)\*', r'\1', text)
text = text.replace('《', '').replace('》', '')
text = re.sub(r'\*\*(.*?)\*\*:\s*', r'\1: ', text)
return text.strip()
```

Each `re.sub` is embedded as a one-pass scanner.  The scanner state records
whether we are outside a match attempt, or inside one holding the (reversed)
characters the lazy group `(.*?)` has consumed so far.  A lazy group stops at
the first possible closing delimiter on the same line (`.` does not match
`'\n'`).  When no closing delimiter exists before the line ends, the regex
engine fails the attempt at the opening position and re-tries from the next
position; for these patterns the skipped-over characters can never start a
successful match before the newline, so the scanner emits them verbatim. -/

/-- Scanner for `re.sub(r'\*\*(.*?)\*\*', r'\1', _)`.
`none`: outside a match; `some acc`: after an opening `**`, with `acc` the
reversed characters consumed by the lazy group so far. -/
def subBBGo : Option (List Char) → List Char → List Char
  | none, [] => []
  | none, '*' :: '*' :: r => subBBGo (some []) r
  | none, c :: r => c :: subBBGo none r
  | some acc, [] => '*' :: '*' :: acc.reverse
  | some acc, '*' :: '*' :: r => acc.reverse ++ subBBGo none r
  | some acc, '\n' :: r => '*' :: '*' :: acc.reverse ++ '\n' :: subBBGo none r
  | some acc, '*' :: [] => '*' :: '*' :: acc.reverse ++ ['*']
  | some acc, c :: r => subBBGo (some (c :: acc)) r

/-- `re.sub(r'\*\*(.*?)\*\*', r'\1', _)`: strip paired bold markers. -/
def subBB (l : List Char) : List Char := subBBGo none l

/-- Scanner for `re.sub(r'\*(.*?)\*', r'\1', _)`. -/
def subStarGo : Option (List Char) → List Char → List Char
  | none, [] => []
  | none, '*' :: r => subStarGo (some []) r
  | none, c :: r => c :: subStarGo none r
  | some acc, [] => '*' :: acc.reverse
  | some acc, '\n' :: r => '*' :: acc.reverse ++ '\n' :: subStarGo none r
  | some acc, '*' :: r => acc.reverse ++ subStarGo none r
  | some acc, c :: r => subStarGo (some (c :: acc)) r

/-- `re.sub(r'\*(.*?)\*', r'\1', _)`: strip paired italic markers. -/
def subStar (l : List Char) : List Char := subStarGo none l

/-- `text.replace('《', '').replace('》', '')`. -/
def removeQuotes (l : List Char) : List Char :=
  (l.filter (fun c => !(c == '《'))).filter (fun c => !(c == '》'))

/-- Scanner state for `re.sub(r'\*\*(.*?)\*\*:\s*', r'\1: ', _)`:
outside a match, inside the lazy group after an opening `**`, or skipping
the trailing `\s*` run after a successful replacement. -/
inductive BCState where
  | out
  | ins (acc : List Char)
  | skipWS

/-- Scanner for `re.sub(r'\*\*(.*?)\*\*:\s*', r'\1: ', _)` (the bold-prefix
collapse).  `\s` does match newlines, so `skipWS` consumes any whitespace. -/
def subBCGo : BCState → List Char → List Char
  | .out, [] => []
  | .out, '*' :: '*' :: r => subBCGo (.ins []) r
  | .out, c :: r => c :: subBCGo .out r
  | .ins acc, [] => '*' :: '*' :: acc.reverse
  | .ins acc, '*' :: '*' :: ':' :: r => acc.reverse ++ ':' :: ' ' :: subBCGo .skipWS r
  | .ins acc, '\n' :: r => '*' :: '*' :: acc.reverse ++ '\n' :: subBCGo .out r
  | .ins acc, c :: r => subBCGo (.ins (c :: acc)) r
  | .skipWS, [] => []
  | .skipWS, '*' :: '*' :: r => subBCGo (.ins []) r
  | .skipWS, c :: r => if isPySpace c then subBCGo .skipWS r else c :: subBCGo .out r

/-- `re.sub(r'\*\*(.*?)\*\*:\s*', r'\1: ', _)`. -/
def subBoldPrefix (l : List Char) : List Char := subBCGo .out l

/-- `_clean_markdown_text` (identical in both source files). -/
def cleanText (l : List Char) : List Char :=
  pyStrip (subBoldPrefix (removeQuotes (subStar (subBB l))))

/-! ## `_parse_markdown_to_tree`

The parser walks the (stripped, newline-split, per-line right-stripped)
lines, classifies each line, and builds the tree with a stack of open
ancestor nodes.  The mutable Python node dictionaries
`{'content', 'level', 'children'}` become `MMNode`; the stack of mutable
references becomes a list of `PFrame`s holding the children accumulated so
far (in reverse), which are materialised when the frame is popped. -/

/-- A parsed outline node: `{'content': ..., 'level': ..., 'children': [...]}`. -/
inductive MMNode where
  | mk (label : List Char) (level : ℕ) (children : List MMNode)

def MMNode.label : MMNode → List Char
  | .mk l _ _ => l

def MMNode.level : MMNode → ℕ
  | .mk _ lv _ => lv

def MMNode.children : MMNode → List MMNode
  | .mk _ _ cs => cs

/-- The backtick character (used by the fenced-code-line check). -/
def backtick : Char := Char.ofNat 96

/-- Length of the leading `#` run. -/
def countHashes : List Char → ℕ
  | '#' :: r => countHashes r + 1
  | _ => 0

/-- `len(line) - len(line.lstrip())`. -/
def leadingWS (l : List Char) : ℕ := (l.takeWhile isPySpace).length

/-- `re.match(r'^\s*\d+\.\s+', line)`: optional whitespace, a digit run,
a literal dot, then at least one whitespace character. -/
def isNumberedLine (l : List Char) : Bool :=
  let a := l.dropWhile isPySpace
  match a.takeWhile Char.isDigit, a.dropWhile Char.isDigit with
  | _ :: _, '.' :: c :: _ => isPySpace c
  | _, _ => false

/-- `re.sub(r'^\s*\d+\.\s*', '', line)` for a line matching
`isNumberedLine`: drop the whitespace, the digits, the dot, and any
following whitespace. -/
def numberedRest (l : List Char) : List Char :=
  (((l.dropWhile isPySpace).dropWhile Char.isDigit).tail).dropWhile isPySpace

/-- `re.match(r'^\s*[-\*\+]\s+', line)`. -/
def isBulletLine (l : List Char) : Bool :=
  match l.dropWhile isPySpace with
  | m :: c :: _ => (m == '-' || m == '*' || m == '+') && isPySpace c
  | _ => false

/-- `re.sub(r'^\s*[-\*\+]\s*', '', line)` for a line matching
`isBulletLine`. -/
def bulletRest (l : List Char) : List Char :=
  ((l.dropWhile isPySpace).tail).dropWhile isPySpace

/-- How one (already right-stripped) line is handled: a heading with its
`#`-count and stripped content, a numbered or bullet list line with its
leading-whitespace count and cleaned content, or a skipped line (blank,
fenced-code fence, or anything else). -/
inductive LineKind where
  | header (k : ℕ) (content : List Char)
  | numbered (ls : ℕ) (content : List Char)
  | bullet (ls : ℕ) (content : List Char)
  | skipLine
deriving DecidableEq

/-- Per-line classification, mirroring the `if`/`elif` chain of
`_parse_markdown_to_tree` (after `line = line.rstrip()`). -/
def classifyLine (line : List Char) : LineKind :=
  if line = [] || line.take 3 = [backtick, backtick, backtick] then .skipLine
  else if line.head? = some '#' then
    .header (countHashes line) (pyStrip (line.drop (countHashes line)))
  else if isNumberedLine line then .numbered (leadingWS line) (cleanText (numberedRest line))
  else if isBulletLine line then .bullet (leadingWS line) (cleanText (bulletRest line))
  else .skipLine

/-- An open node on the parser stack: its content, its level, and the
children attached to it so far, most recent first. -/
structure PFrame where
  label : List Char
  level : ℕ
  revChildren : List MMNode

/-- Materialise a finished frame as a node. -/
def closeFrame (f : PFrame) : MMNode := .mk f.label f.level f.revChildren.reverse

/-- Attach a finished child node to an open frame. -/
def addChild (f : PFrame) (n : MMNode) : PFrame :=
  { f with revChildren := n :: f.revChildren }

/-- Parser state: `last_header_level`, the stack of open nodes, the finished
top-level root candidates (most recent first), and — for stating parser
claims — the `(content, level)` pairs of the nodes produced so far (most
recent first). -/
structure PState where
  lastHeader : ℕ
  stack : List PFrame
  revRoots : List MMNode
  revProduced : List (List Char × ℕ)

/-- `while node_stack and node_stack[-1]['level'] >= level: node_stack.pop()`.
Frames whose level is `≥ lvl` are popped and materialised; each closed node
becomes the most recent child of the frame below it, or a root candidate if
nothing is below.  `pending` carries a just-closed node downward. -/
def popGo (lvl : ℕ) (pending : Option MMNode) :
    List PFrame → List MMNode → List PFrame × List MMNode
  | [], roots =>
      ([], match pending with
           | some n => n :: roots
           | none => roots)
  | f :: fs, roots =>
      let g := match pending with
               | some n => addChild f n
               | none => f
      if lvl ≤ g.level then popGo lvl (some (closeFrame g)) fs roots
      else (g :: fs, roots)

/-- Create a node `(label, lvl)`: pop the stack down past levels `≥ lvl`,
then push a fresh open frame for the node. -/
def pushNode (st : PState) (label : List Char) (lvl : ℕ) : PState :=
  let pr := popGo lvl none st.stack st.revRoots
  { st with
    stack := ⟨label, lvl, []⟩ :: pr.1
    revRoots := pr.2
    revProduced := (label, lvl) :: st.revProduced }

/-- Processing of one raw line of the outline (the loop body of
`_parse_markdown_to_tree`).  A heading records `last_header_level` even when
its content is empty; a numbered line resets `last_header_level` to `0` only
when it actually produces a node (the reset sits after the empty-content
`continue`); bullet lines never touch `last_header_level`. -/
def lineStep (st : PState) (rawLine : List Char) : PState :=
  match classifyLine (pyRStrip rawLine) with
  | .skipLine => st
  | .header k c =>
      let st1 := { st with lastHeader := k }
      if c = [] then st1 else pushNode st1 c k
  | .numbered ls c =>
      if c = [] then st
      else pushNode { st with lastHeader := 0 } c (ls / 2 + 2)
  | .bullet ls c =>
      if c = [] then st
      else
        let lvl := if ls = 0 ∧ 0 < st.lastHeader then st.lastHeader + 1 else ls / 2 + 2
        pushNode st c lvl

/-- `text.split('\n')` (accumulator-based). -/
def splitLinesGo (cur : List Char) : List Char → List (List Char)
  | [] => [cur.reverse]
  | '\n' :: r => cur.reverse :: splitLinesGo [] r
  | c :: r => splitLinesGo (c :: cur) r

/-- `markdown_text.strip().split('\n')`. -/
def parseLines (s : List Char) : List (List Char) := splitLinesGo [] (pyStrip s)

def initPState : PState := ⟨0, [], [], []⟩

/-- Parser state after all lines have been processed. -/
def finalPState (s : List Char) : PState := (parseLines s).foldl lineStep initPState

/-- The top-level root candidates (`nodes` in the Python source), in source
order; reaching the end of the input closes every still-open frame. -/
def rootCands (s : List Char) : List MMNode :=
  (popGo 0 none (finalPState s).stack (finalPState s).revRoots).2.reverse

/-- The `(content, level)` pairs of all nodes the parser produced, in source
order. -/
def producedNodes (s : List Char) : List (List Char × ℕ) :=
  (finalPState s).revProduced.reverse

/-- The levels of all nodes the parser produced, in source order. -/
def producedLevels (s : List Char) : List ℕ := (producedNodes s).map (fun p => p.2)

def mindMapLabel : List Char := ['M', 'i', 'n', 'd', ' ', 'M', 'a', 'p']

/-- `{'content': 'Mind Map', 'level': 1, 'children': []}`. -/
def defaultRoot : MMNode := .mk mindMapLabel 1 []

/-- `_parse_markdown_to_tree` (identical in both source files): zero root
candidates give the default node, exactly one is returned as-is, several are
wrapped under a synthetic `Mind Map` root. -/
def parseMarkdownToTree (s : List Char) : MMNode :=
  let ns := rootCands s
  if ns.isEmpty then defaultRoot
  else if ns.length = 1 then ns.headD defaultRoot
  else .mk mindMapLabel 1 ns

/-! ## Weight/size annotator

`_calculate_subtree_weight` (radial): a leaf weighs 1, an internal node
weighs the sum of its children's weights.  `leafCount` is the derived
quantity the spec describes (number of leaves in the subtree). -/

mutual

/-- `_calculate_subtree_weight`. -/
def weight : MMNode → ℕ
  | .mk _ _ cs =>
      match cs with
      | [] => 1
      | _ :: _ => weightSum cs

def weightSum : List MMNode → ℕ
  | [] => 0
  | c :: cs => weight c + weightSum cs

end

mutual

/-- Number of leaves in a subtree. -/
def leafCount : MMNode → ℕ
  | .mk _ _ cs =>
      match cs with
      | [] => 1
      | _ :: _ => leafCountSum cs

def leafCountSum : List MMNode → ℕ
  | [] => 0
  | c :: cs => leafCount c + leafCountSum cs

end

/-- Induction principle for `MMNode` via its (list of) children. -/
theorem mmInduction (P : MMNode → Prop)
    (h : ∀ lbl lvl cs, (∀ c ∈ cs, P c) → P (.mk lbl lvl cs)) : ∀ n, P n
  | .mk lbl lvl cs => h lbl lvl cs (fun c _ => mmInduction P h c)
termination_by n => sizeOf n
decreasing_by
  rename_i hc
  have := List.sizeOf_lt_of_mem hc
  simp only [MMNode.mk.sizeOf_spec]
  omega

/-! ## Horizontal layout (`mind_map_horizontal.py`)

Pass 1 (`_estimate_text_width`, `_calculate_subtree_layout_data`) over exact
rationals: `0.6 = 3/5`, `0.4 = 2/5`, `0.8 = 4/5`, `0.1 = 1/10`. -/

/-- Per-character width: wide (non-ASCII) characters score `1.0`, ASCII
characters `0.6`. -/
def charWidthScore (c : Char) : ℚ :=
  if 127 < c.toNat then 1 else 3 / 5

/-- `width_score` accumulated over the label. -/
def widthScore (l : List Char) : ℚ := (l.map charWidthScore).sum

/-- `scale = max(1.0 - (depth_level - 1) * 0.1, 0.6)`. -/
def depthScale (d : ℕ) : ℚ := max (1 - ((d : ℚ) - 1) * (1 / 10)) (3 / 5)

/-- `_estimate_text_width`: `width_score * scale * 0.4 + 0.8`. -/
def estWidth (l : List Char) (d : ℕ) : ℚ :=
  widthScore l * depthScale d * (2 / 5) + 4 / 5

/-- The inter-sibling vertical gap `0.6`. -/
def hGap : ℚ := 3 / 5

mutual

/-- `_calculate_subtree_layout_data`'s height computation
(`node['_subtree_height']`): a leaf occupies `1.0` unit; otherwise the
children's total plus `gap * (childCount - 1)`, floored at `1.0`. -/
def subtreeHeight : MMNode → ℚ
  | .mk _ _ cs =>
      match cs with
      | [] => 1
      | _ :: _ =>
          let total := heightSum cs + (if 1 < cs.length then ((cs.length : ℚ) - 1) * hGap else 0)
          max 1 total

def heightSum : List MMNode → ℚ
  | [] => 0
  | c :: cs => subtreeHeight c + heightSum cs

end

/-- The fixed branch palette (identical in both engines). -/
def branchColors : List String :=
  ["#FF6B6B", "#4ECDC4", "#45B7D1", "#96CEB4", "#FECA57", "#FF9FF3",
   "#54A0FF", "#5F27CD", "#00D2D3", "#FF9F43", "#EE5A24", "#0984E3"]

def rootColor : String := "#333333"

/-- A node annotated by `_assign_coordinates_to_tree`: position, depth,
color, the `_width` estimate it carries, and its placed children. -/
inductive PlacedNode where
  | mk (x y : ℚ) (depth : ℕ) (color : String) (width : ℚ)
      (label : List Char) (children : List PlacedNode)

def PlacedNode.x : PlacedNode → ℚ
  | .mk x _ _ _ _ _ _ => x

def PlacedNode.y : PlacedNode → ℚ
  | .mk _ y _ _ _ _ _ => y

def PlacedNode.depth : PlacedNode → ℕ
  | .mk _ _ d _ _ _ _ => d

def PlacedNode.color : PlacedNode → String
  | .mk _ _ _ c _ _ _ => c

def PlacedNode.width : PlacedNode → ℚ
  | .mk _ _ _ _ w _ _ => w

def PlacedNode.children : PlacedNode → List PlacedNode
  | .mk _ _ _ _ _ _ cs => cs

/-- `max_child_width`: fold of `max` over the children's estimated widths,
starting from `0`. -/
def maxChildWidth (cs : List MMNode) (d : ℕ) : ℚ :=
  cs.foldl (fun m c => max m (estWidth c.label d)) 0

/-- `total_children_height`: the children's subtree heights plus
`gap * (n - 1)`. -/
def totalChildrenHeight (cs : List MMNode) : ℚ :=
  heightSum cs + (if 1 < cs.length then ((cs.length : ℚ) - 1) * hGap else 0)

mutual

/-- `_assign_coordinates_to_tree` (pass 2): place a node at `(x, yCenter)`,
then stack its children in one column at
`x + width/2 + connectorLength + maxChildWidth/2` with `connectorLength = 2`.
The stored `_width` values are exactly `estWidth label depth` for the depth
at which pass 1 visited the node, so they are recomputed here from the same
data. -/
def assignCoords (n : MMNode) (x yCenter : ℚ) (inherited : String) (d : ℕ) : PlacedNode :=
  match n with
  | .mk lbl _ cs =>
      let color := if d = 1 then rootColor else inherited
      let w := estWidth lbl d
      let childX := x + w / 2 + 2 + maxChildWidth cs (d + 1) / 2
      let kids := assignKids cs childX (yCenter + totalChildrenHeight cs / 2) color d 0
      .mk x yCenter d color w lbl kids

/-- The children loop of `_assign_coordinates_to_tree`: `curY` starts at
`yCenter + totalChildrenHeight/2`; each child is centred `height/2` below it
and `curY` then moves down by `height + gap`.  Depth-1 parents hand out
palette colors by sibling index; deeper parents pass their own color on. -/
def assignKids (cs : List MMNode) (childX curY : ℚ) (parentColor : String)
    (d i : ℕ) : List PlacedNode :=
  match cs with
  | [] => []
  | c :: rest =>
      let ch := subtreeHeight c
      let childColor :=
        if d = 1 then branchColors.getD (i % branchColors.length) rootColor
        else parentColor
      assignCoords c childX (curY - ch / 2) childColor (d + 1) ::
        assignKids rest childX (curY - (ch + hGap)) parentColor d (i + 1)

end

mutual

/-- Flatten a placed tree, root first. -/
def placedNodes : PlacedNode → List PlacedNode
  | .mk x y d c w l cs => .mk x y d c w l cs :: placedNodesList cs

/-- Flatten a forest of placed trees. -/
def placedNodesList : List PlacedNode → List PlacedNode
  | [] => []
  | p :: ps => placedNodes p ++ placedNodesList ps

end

/-! ## Radial layout (`mind_map_center.py`)

The children loop of `layout_recursive` hands each child the angular
sub-range `[current, current + (weight/total) * range)` and advances
`current` by the same step.  The arithmetic is stated over an arbitrary
linear ordered field so that the tiling facts hold both for the exact
rational model and for the real-valued root range `[0, 2π)`. -/

/-- The sequence of `(child_start, child_end)` sub-ranges handed to the
children, in source order: `child_angle_step = (w / total) * range`. -/
def angleSlices {α : Type} [LinearOrderedField α] (current range : α) (total : ℕ) :
    List ℕ → List (α × α)
  | [] => []
  | w :: ws =>
      (current, current + ((w : α) / (total : α)) * range) ::
        angleSlices (current + ((w : α) / (total : α)) * range) range total ws

/-! Radius bookkeeping of `get_min_radius_for_depth` and the collision
search of `layout_recursive`.  `min_radius_by_depth` is modelled as a total
function defaulting to `0` (every stored value is positive, and a missing
key behaves like `max` with `0`). -/

noncomputable section

open scoped Classical

/-- Half of a box's diagonal: `math.sqrt(w**2 + h**2) / 2`. -/
def halfDiagonal (w h : ℝ) : ℝ := Real.sqrt (w ^ 2 + h ^ 2) / 2

/-- `safe_distance`: both boxes known → half diagonals plus a 30 gap;
otherwise the fixed fallback `60`. -/
def safeDistance : Option (ℝ × ℝ) → Option (ℝ × ℝ) → ℝ
  | some p, some c => halfDiagonal p.1 p.2 + halfDiagonal c.1 c.2 + 30
  | _, _ => 60

/-- `base_min_radius = 100 + (depth_level - 1) * 120`. -/
def baseMinRadius (d : ℕ) : ℝ := 100 + ((d : ℝ) - 1) * 120

/-- `base_min_radius` after the parent-radius raise: when `parent_radius > 0`
it is raised to at least `parent_radius + safe_distance`. -/
def requiredMinRadius (d : ℕ) (parentRadius : ℝ) (ps cs : Option (ℝ × ℝ)) : ℝ :=
  if 0 < parentRadius then max (baseMinRadius d) (parentRadius + safeDistance ps cs)
  else baseMinRadius d

/-- `min_radius_by_depth[depth] = max(min_radius_by_depth.get(depth), v)`. -/
def updatedTable (tbl : ℕ → ℝ) (d : ℕ) (v : ℝ) : ℕ → ℝ :=
  fun e => if e = d then max (tbl e) v else tbl e

/-- `get_min_radius_for_depth`: raise the per-depth running maximum by this
node's requirement and return the updated entry together with the updated
table. -/
def getMinRadiusForDepth (tbl : ℕ → ℝ) (d : ℕ) (parentRadius : ℝ)
    (ps cs : Option (ℝ × ℝ)) : ℝ × (ℕ → ℝ) :=
  let t := updatedTable tbl d (requiredMinRadius d parentRadius ps cs)
  (t d, t)

/-- `base_step = 20 + (depth_level - 1) * 5`. -/
def baseStep (d : ℕ) : ℝ := 20 + ((d : ℝ) - 1) * 5

/-- `step = base_step * (1 + attempt * 0.05)`. -/
def stepSize (d a : ℕ) : ℝ := baseStep d * (1 + (a : ℝ) * (5 / 100))

/-- `test_r = radius_base + attempt * step`, clamped up to `min_radius`
(`if test_r < min_radius: test_r = min_radius`), with
`radius_base = min_radius`. -/
def testRadius (minR : ℝ) (d a : ℕ) : ℝ := max (minR + (a : ℝ) * stepSize d a) minR

/-- `(test_r * cos(mid_angle), test_r * sin(mid_angle))`. -/
def polarPos (r θ : ℝ) : ℝ × ℝ := (r * Real.cos θ, r * Real.sin θ)

/-- Euclidean distance from the origin. -/
def originDist (p : ℝ × ℝ) : ℝ := Real.sqrt (p.1 ^ 2 + p.2 ^ 2)

/-- A placed box `(x, y, w, h)` in `placed_boxes`. -/
structure RBox where
  x : ℝ
  y : ℝ
  w : ℝ
  h : ℝ

/-- `check_collision`: axis-aligned overlap of the candidate box (inflated
by the 20-unit margin) against one placed box. -/
def boxOverlap (b : RBox) (x y w h margin : ℝ) : Prop :=
  ¬ (x - w / 2 - margin > b.x + b.w / 2 ∨ x + w / 2 + margin < b.x - b.w / 2 ∨
     y - h / 2 - margin > b.y + b.h / 2 ∨ y + h / 2 + margin < b.y - b.h / 2)

/-- `check_collision` over the whole placed-box list (default margin 20). -/
def checkCollision (boxes : List RBox) (x y w h : ℝ) : Prop :=
  ∃ b ∈ boxes, boxOverlap b x y w h 20

/-- Whether collision-free placement succeeds at attempt `a`. -/
def placementFree (boxes : List RBox) (minR : ℝ) (d : ℕ) (mid w h : ℝ) (a : ℕ) : Prop :=
  ¬ checkCollision boxes (polarPos (testRadius minR d a) mid).1
      (polarPos (testRadius minR d a) mid).2 w h

/-- The attempt the search accepts: the first collision-free attempt below
150, or attempt 149 (the last `test_r` probed by the loop) as the documented
fallback. -/
def chosenAttempt (boxes : List RBox) (minR : ℝ) (d : ℕ) (mid w h : ℝ) : ℕ :=
  ((List.range 150).find? fun a => decide (placementFree boxes minR d mid w h a)).getD 149

/-- One record of `layout_nodes`. -/
structure RLNode where
  x : ℝ
  y : ℝ
  parentX : ℝ
  parentY : ℝ
  label : List Char
  depth : ℕ
  color : String
  w : ℝ
  h : ℝ

/-- The mutable layout state threaded through `layout_recursive`:
`layout_nodes`, `placed_boxes`, and `min_radius_by_depth`.
(`parent_radius_map` is also written by the source but never read, so it is
not modelled.) -/
structure RState where
  nodes : List RLNode
  boxes : List RBox
  tbl : ℕ → ℝ

/-- Per-call parameters of `layout_recursive`. -/
structure RParams where
  parentX : ℝ
  parentY : ℝ
  startAngle : ℝ
  endAngle : ℝ
  depth : ℕ
  inherited : String
  parentRadius : ℝ
  parentSize : Option (ℝ × ℝ)

/-- The external text-metrics oracle (`_measure_text_size`). -/
def Measure : Type := List Char → ℕ → ℝ × ℝ

/-- Placement of a single node by `layout_recursive` prior to the children
loop: the root sits at the origin with the fixed root color and radius 0;
any other node is placed on its sub-range's bisector at the probe radius of
the accepted attempt, after which the per-depth table is re-raised when the
accepted radius exceeds the stored minimum by more than 20%.  Returns the
new `layout_nodes` record, the successor state (record and box appended),
and the node's accepted radius (`current_radius`). -/
def placeNode (m : Measure) (lbl : List Char) (p : RParams) (st : RState) :
    RLNode × RState × ℝ :=
  let wh := m lbl p.depth
  if p.depth = 1 then
    (⟨0, 0, p.parentX, p.parentY, lbl, p.depth, rootColor, wh.1, wh.2⟩,
     ⟨st.nodes ++ [⟨0, 0, p.parentX, p.parentY, lbl, p.depth, rootColor, wh.1, wh.2⟩],
      st.boxes ++ [⟨0, 0, wh.1, wh.2⟩], st.tbl⟩, 0)
  else
    let mr := getMinRadiusForDepth st.tbl p.depth p.parentRadius p.parentSize (some wh)
    let mid := (p.startAngle + p.endAngle) / 2
    let a := chosenAttempt st.boxes mr.1 p.depth mid wh.1 wh.2
    let r := testRadius mr.1 p.depth a
    let pos := polarPos r mid
    let tbl2 :=
      if mr.2 p.depth < r then
        (if mr.2 p.depth * (12 / 10) < r then updatedTable mr.2 p.depth r else mr.2)
      else mr.2
    (⟨pos.1, pos.2, p.parentX, p.parentY, lbl, p.depth, p.inherited, wh.1, wh.2⟩,
     ⟨st.nodes ++ [⟨pos.1, pos.2, p.parentX, p.parentY, lbl, p.depth, p.inherited, wh.1, wh.2⟩],
      st.boxes ++ [⟨pos.1, pos.2, wh.1, wh.2⟩], tbl2⟩, r)

mutual

/-- `layout_recursive`: place this node (root at the origin; any other node
on its sub-range's bisector at the first collision-free radius, never below
`min_radius`), append its box and record, update the per-depth table, then
lay out the children over proportional angular sub-ranges.  The node's own
color (root color at depth 1, the inherited branch color otherwise) is what
deeper descendants inherit. -/
def layoutRec (m : Measure) (n : MMNode) (p : RParams) (st : RState) : RState :=
  match n with
  | .mk lbl _ cs =>
      let pr := placeNode m lbl p st
      layoutKids m cs pr.1.x pr.1.y p.startAngle (p.endAngle - p.startAngle) (weightSum cs)
        p.depth pr.1.color pr.2.2 (some (m lbl p.depth)) 0 pr.2.1

/-- The children loop of `layout_recursive`: hand child `i` the sub-range
`[cur, cur + (weight/total) * range)`, a palette color (by sibling index)
under a depth-1 parent or the inherited color otherwise, and the parent's
accepted radius and measured size. -/
def layoutKids (m : Measure) (cs : List MMNode) (x y cur range : ℝ) (total : ℕ)
    (d : ℕ) (inh : String) (r : ℝ) (size : Option (ℝ × ℝ)) (i : ℕ) (st : RState) : RState :=
  match cs with
  | [] => st
  | c :: rest =>
      let step := ((weight c : ℝ) / (total : ℝ)) * range
      let childColor :=
        if d = 1 then branchColors.getD (i % branchColors.length) rootColor
        else inh
      let st1 := layoutRec m c
        ⟨x, y, cur, cur + step, d + 1, childColor, r, size⟩ st
      layoutKids m rest x y (cur + step) range total d inh r size (i + 1) st1

end

/-- The top-level call of `_generate_png_mindmap` (center):
`layout_recursive(tree_data, 0, 0, 0, 2*math.pi, 1, '#333333',
parent_radius=0, parent_size=None, node_id='root')`, starting from empty
layout state. -/
def radialLayoutNodes (m : Measure) (t : MMNode) : List RLNode :=
  (layoutRec m t ⟨0, 0, 0, 2 * Real.pi, 1, rootColor, 0, none⟩
      ⟨[], [], fun _ => 0⟩).nodes

/-- The guard `if not layout_nodes: return False` of `_generate_png_mindmap`:
`true` means the generation fails with the zero-nodes error. -/
def zeroNodesFailure (m : Measure) (t : MMNode) : Bool :=
  (radialLayoutNodes m t).isEmpty

/-- The layout kind requested by the host (`mind_map_center.py` versus
`mind_map_horizontal.py`). -/
inductive LayoutKind where
  | radial
  | horizontal

/-- The full parse → annotate → layout pipeline on one outline text, with
the text-metrics oracle `m` held fixed; the output is the complete list of
radially placed records, or the placed horizontal tree (coordinates, depths,
weights implicit in the angular steps, and colors all included). -/
def runPipeline (m : Measure) (kind : LayoutKind) (s : List Char) :
    List RLNode ⊕ PlacedNode :=
  match kind with
  | .radial => .inl (radialLayoutNodes m (parseMarkdownToTree s))
  | .horizontal => .inr (assignCoords (parseMarkdownToTree s) 0 0 rootColor 1)

end

/-! ## Weight invariant (C5) -/

theorem weightSum_eq_map_sum : ∀ cs : List MMNode, weightSum cs = (cs.map weight).sum := by
  intro cs
  induction cs with
  | nil => rfl
  | cons c rest ih => simp [weightSum, ih]

theorem leafCountSum_eq_map_sum :
    ∀ cs : List MMNode, leafCountSum cs = (cs.map leafCount).sum := by
  intro cs
  induction cs with
  | nil => rfl
  | cons c rest ih => simp [leafCountSum, ih]

theorem weight_eq_leafCount : ∀ n : MMNode, weight n = leafCount n := by
  refine mmInduction _ ?_
  intro lbl lvl cs ih
  match cs with
  | [] => rfl
  | c :: rest =>
      show weightSum (c :: rest) = leafCountSum (c :: rest)
      rw [weightSum_eq_map_sum, leafCountSum_eq_map_sum]
      exact congrArg List.sum (List.map_congr_left ih)

/-- C5: after the radial weight pass every leaf has weight 1, every internal
node's weight is the sum of its children's weights, and the weight of a node
equals the number of leaves in its subtree. -/
theorem radial_weight_invariant (n : MMNode) :
    weight n = leafCount n ∧
    (n.children = [] → weight n = 1) ∧
    (n.children ≠ [] → weight n = (n.children.map weight).sum) := by
  match n with
  | .mk lbl lvl cs =>
      refine ⟨weight_eq_leafCount _, ?_, ?_⟩
      · intro h
        match cs, h with
        | [], _ => rfl
      · intro h
        match cs, h with
        | c :: rest, _ =>
            show weightSum (c :: rest) = _
            rw [weightSum_eq_map_sum]
            rfl

theorem radial_weight_invariant_witness :
    weight (.mk ['T'] 1 [.mk ['a'] 2 [], .mk ['b'] 2 [.mk ['c'] 3 []]]) =
        leafCount (.mk ['T'] 1 [.mk ['a'] 2 [], .mk ['b'] 2 [.mk ['c'] 3 []]]) ∧
      weight (.mk ['T'] 1 [.mk ['a'] 2 [], .mk ['b'] 2 [.mk ['c'] 3 []]]) =
        (([MMNode.mk ['a'] 2 [], .mk ['b'] 2 [.mk ['c'] 3 []]]).map weight).sum :=
  ⟨(radial_weight_invariant _).1,
   (radial_weight_invariant (.mk ['T'] 1 [.mk ['a'] 2 [], .mk ['b'] 2 [.mk ['c'] 3 []]])).2.2
     (List.cons_ne_nil _ _)⟩

/-! ## Height invariant (C2)

The claim's `subtreeHeight = 1.0 only for leaves` fails: a node with one
leaf child packs to `max 1 (1 + 0) = 1`. -/

theorem heightSum_eq_map_sum :
    ∀ cs : List MMNode, heightSum cs = (cs.map subtreeHeight).sum := by
  intro cs
  induction cs with
  | nil => rfl
  | cons c rest ih => simp [heightSum, ih]

/-- C2 (counterexample): a non-leaf (one leaf child) whose `subtreeHeight`
is exactly `1.0`, refuting "equality holds only for leaves". -/
theorem subtreeHeight_one_with_child :
    subtreeHeight (.mk ['p'] 1 [.mk ['c'] 2 []]) = 1 ∧
      (MMNode.mk ['p'] 1 [.mk ['c'] 2 []]).children ≠ [] := by
  constructor
  · show max 1 (heightSum [MMNode.mk ['c'] 2 []] + _) = 1
    norm_num [heightSum, subtreeHeight]
  · exact List.cons_ne_nil _ _

/-- C2 (amended): after the bottom-up height pass, every node satisfies
`subtreeHeight ≥ 1.0`, every leaf has `subtreeHeight = 1.0`, and a node with
children satisfies
`subtreeHeight = max 1 (sum of children's subtreeHeight + 0.6*(childCount-1))`;
however `subtreeHeight = 1.0` is not exclusive to leaves. -/
theorem horizontal_height_invariant (n : MMNode) :
    1 ≤ subtreeHeight n ∧
    (n.children = [] → subtreeHeight n = 1) ∧
    (n.children ≠ [] →
      subtreeHeight n =
        max 1 ((n.children.map subtreeHeight).sum + hGap * ((n.children.length : ℚ) - 1))) := by
  match n with
  | .mk lbl lvl cs =>
      refine ⟨?_, ?_, ?_⟩
      · match cs with
        | [] => exact le_refl 1
        | c :: rest => exact le_max_left _ _
      · intro h
        match cs, h with
        | [], _ => rfl
      · intro h
        match cs, h with
        | c :: rest, _ =>
            show max 1 (heightSum (c :: rest) + _) = _
            rw [heightSum_eq_map_sum]
            simp only [MMNode.children]
            rcases Nat.lt_or_ge 1 (c :: rest).length with hl | hl
            · rw [if_pos hl]
              congr 1
              ring
            · have hone : (c :: rest).length = 1 := le_antisymm hl (Nat.succ_le_succ (Nat.zero_le _))
              rw [if_neg (by omega), hone]
              norm_num

/-! ## Angular partition (C4) -/

theorem angleSlices_length {α : Type} [LinearOrderedField α] (r : α) (total : ℕ) :
    ∀ (ws : List ℕ) (cur : α), (angleSlices cur r total ws).length = ws.length := by
  intro ws
  induction ws with
  | nil => intro cur; rfl
  | cons w rest ih => intro cur; simp [angleSlices, ih]

theorem angleSlices_get {α : Type} [LinearOrderedField α] (r : α) (W : ℕ) :
    ∀ (ws : List ℕ) (a : α) (i : ℕ) (hi : i < (angleSlices a r W ws).length),
      (angleSlices a r W ws).get ⟨i, hi⟩ =
        (a + (((ws.take i).sum : α) / (W : α)) * r,
         a + (((ws.take (i + 1)).sum : α) / (W : α)) * r) := by
  intro ws
  induction ws with
  | nil => intro a i hi; simp [angleSlices] at hi
  | cons w rest ih =>
      intro a i hi
      match i with
      | 0 => simp [angleSlices]
      | j + 1 =>
          have hj : j < (angleSlices (a + ((w : α) / (W : α)) * r) r W rest).length := by
            simpa [angleSlices] using hi
          have := ih (a + ((w : α) / (W : α)) * r) j hj
          show (angleSlices (a + ((w : α) / (W : α)) * r) r W rest).get ⟨j, hj⟩ = _
          rw [this]
          have harith : ∀ S : ℕ,
              a + ((w : α) / (W : α)) * r + ((S : α) / (W : α)) * r =
              a + (((w + S : ℕ) : α) / (W : α)) * r := by
            intro S
            push_cast
            rw [add_div, add_mul]
            ring
          rw [List.take_succ_cons, List.take_succ_cons, List.sum_cons, List.sum_cons,
            harith, harith]

theorem angleSlices_getElem {α : Type} [LinearOrderedField α] (r : α) (W : ℕ)
    (ws : List ℕ) (a : α) (i : ℕ) (hi : i < (angleSlices a r W ws).length) :
    (angleSlices a r W ws)[i] =
      (a + (((ws.take i).sum : α) / (W : α)) * r,
       a + (((ws.take (i + 1)).sum : α) / (W : α)) * r) :=
  (List.get_eq_getElem _ ⟨i, hi⟩).symm.trans (angleSlices_get r W ws a i hi)

/-- C4: in the radial layout the children's angular sub-ranges are consumed
consecutively in source order, each of size `weight/totalWeight` times the
parent's range, so they tile the parent's range `[startA, endA)` exactly —
the first sub-range starts at `startA`, each sub-range ends where the next
begins, and the last ends at `endA` (the root's range being `[0, 2π)` by the
top-level call).  Over the exact field model the tiling is exact, which is
within the claimed floating-point tolerance. -/
theorem radial_angular_partition {α : Type} [LinearOrderedField α]
    (startA endA : α) (ws : List ℕ) (hW : ws.sum ≠ 0) :
    (angleSlices startA (endA - startA) ws.sum ws).length = ws.length ∧
    List.Chain' (fun p q => p.2 = q.1) (angleSlices startA (endA - startA) ws.sum ws) ∧
    (∀ i (hi : i < (angleSlices startA (endA - startA) ws.sum ws).length),
      ((angleSlices startA (endA - startA) ws.sum ws).get ⟨i, hi⟩).2 -
          ((angleSlices startA (endA - startA) ws.sum ws).get ⟨i, hi⟩).1 =
        ((ws.getD i 0 : α) / (ws.sum : α)) * (endA - startA)) ∧
    (∀ h : angleSlices startA (endA - startA) ws.sum ws ≠ [],
      ((angleSlices startA (endA - startA) ws.sum ws).head h).1 = startA ∧
      ((angleSlices startA (endA - startA) ws.sum ws).getLast h).2 = endA) := by
  have hlen := angleSlices_length (endA - startA) ws.sum ws startA
  refine ⟨hlen, ?_, ?_, ?_⟩
  · rw [List.chain'_iff_get]
    intro i h
    rw [angleSlices_get, angleSlices_get]
  · intro i hi
    rw [angleSlices_get]
    have hiw : i < ws.length := hlen ▸ hi
    rw [List.getD_eq_getElem _ _ hiw, List.sum_take_succ _ _ hiw]
    push_cast
    rw [add_div, add_mul]
    ring
  · intro h
    constructor
    · rw [List.head_eq_getElem_zero h, angleSlices_getElem]
      simp
    · rw [List.getLast_eq_getElem, angleSlices_getElem]
      have hlast : (angleSlices startA (endA - startA) ws.sum ws).length - 1 + 1 = ws.length := by
        rw [hlen]
        have hne : ws ≠ [] := by
          intro hnil
          exact h (by simp [hnil, angleSlices])
        have : 0 < ws.length := List.length_pos.mpr hne
        omega
      rw [hlast, List.take_length]
      rw [div_self (by exact_mod_cast hW)]
      ring

theorem radial_angular_partition_witness :
    (angleSlices (0 : ℚ) ((1 : ℚ) - 0) ([1, 2] : List ℕ).sum [1, 2]).length =
      ([1, 2] : List ℕ).length :=
  (radial_angular_partition (0 : ℚ) 1 [1, 2] (by decide)).1

/-! ## Radial outward invariant (C3) -/

theorem originDist_polarPos (r θ : ℝ) : originDist (polarPos r θ) = |r| := by
  unfold originDist polarPos
  have : (r * Real.cos θ) ^ 2 + (r * Real.sin θ) ^ 2 = r ^ 2 := by
    rw [mul_pow, mul_pow, ← mul_add, Real.cos_sq_add_sin_sq, mul_one]
  rw [this, Real.sqrt_sq_eq_abs]

theorem safeDistance_pos (ps cs : Option (ℝ × ℝ)) : 0 < safeDistance ps cs := by
  match ps, cs with
  | some p, some c =>
      have h1 : 0 ≤ halfDiagonal p.1 p.2 := div_nonneg (Real.sqrt_nonneg _) (by norm_num)
      have h2 : 0 ≤ halfDiagonal c.1 c.2 := div_nonneg (Real.sqrt_nonneg _) (by norm_num)
      show 0 < halfDiagonal p.1 p.2 + halfDiagonal c.1 c.2 + 30
      linarith
  | some _, none => show (0 : ℝ) < 60; norm_num
  | none, some _ => show (0 : ℝ) < 60; norm_num
  | none, none => show (0 : ℝ) < 60; norm_num

theorem requiredMinRadius_gt (d : ℕ) (pr : ℝ) (ps cs : Option (ℝ × ℝ))
    (hd : 2 ≤ d) (hpr : 0 ≤ pr) : pr < requiredMinRadius d pr ps cs := by
  unfold requiredMinRadius
  split
  · exact lt_of_lt_of_le (by linarith [safeDistance_pos ps cs]) (le_max_right _ _)
  · have hpr0 : pr = 0 := le_antisymm (not_lt.mp (by assumption)) hpr
    have hdr : (2 : ℝ) ≤ (d : ℝ) := by exact_mod_cast hd
    unfold baseMinRadius
    nlinarith

/-- C3: for every non-root radial node (depth ≥ 2), every probe radius of
the collision search — hence in particular the accepted radius of a
successful (non-fallback) search — puts the node strictly farther from the
origin than its parent, because `get_min_radius_for_depth` raises the
minimum radius to at least `parentRadius + safeDistance` (with
`safeDistance = halfDiagonal(parent) + halfDiagonal(current) + 30`, or `60`
when a box size is unavailable) and the probe radii never drop below that
minimum. -/
theorem radial_child_outward (tbl : ℕ → ℝ) (d a : ℕ) (pr : ℝ)
    (ps cs : Option (ℝ × ℝ)) (angC angP : ℝ) (hd : 2 ≤ d) (hpr : 0 ≤ pr) :
    originDist (polarPos pr angP) <
      originDist (polarPos (testRadius (getMinRadiusForDepth tbl d pr ps cs).1 d a) angC) ∧
    (0 < pr → pr + safeDistance ps cs ≤ (getMinRadiusForDepth tbl d pr ps cs).1) := by
  have hreq : pr < requiredMinRadius d pr ps cs := requiredMinRadius_gt d pr ps cs hd hpr
  have hmin : requiredMinRadius d pr ps cs ≤ (getMinRadiusForDepth tbl d pr ps cs).1 := by
    unfold getMinRadiusForDepth updatedTable
    simp
  have htest : (getMinRadiusForDepth tbl d pr ps cs).1 ≤
      testRadius (getMinRadiusForDepth tbl d pr ps cs).1 d a := le_max_right _ _
  constructor
  · rw [originDist_polarPos, originDist_polarPos, abs_of_nonneg hpr,
      abs_of_nonneg (by linarith)]
    linarith
  · intro hpos
    refine le_trans ?_ hmin
    unfold requiredMinRadius
    rw [if_pos hpos]
    exact le_max_right _ _

/-! ## Clean-text idempotence (C8)

Key invariant: after `subStar`, no `'*'` is ever followed by another `'*'`
on the same line (`re.sub(r'\*(.*?)\*', r'\1', _)` pairs the stars of each
line left to right, leaving at most a trailing unpaired one per line).  Text
with that property is a fixed point of all four substitutions, and stripping
preserves it, so cleaning is idempotent. -/

/-- No `'*'` occurs before the first `'\n'`. -/
def noStarLine : List Char → Bool
  | [] => true
  | c :: r => if c = '\n' then true else if c = '*' then false else noStarLine r

/-- No `'*'` is followed by another `'*'` on the same line. -/
def starsSeparated : List Char → Bool
  | [] => true
  | c :: r => (if c = '*' then noStarLine r else true) && starsSeparated r

/-- No two adjacent `'*'` characters. -/
def noDoubleStar : List Char → Bool
  | [] => true
  | c :: r => !(c == '*' && r.head? == some '*') && noDoubleStar r

theorem noStarLine_of_no_star {b : List Char} (h : ∀ c ∈ b, c ≠ '*') :
    noStarLine b = true := by
  induction b with
  | nil => rfl
  | cons c r ih =>
      rw [noStarLine]
      by_cases hn : c = '\n'
      · rw [if_pos hn]
      · rw [if_neg hn, if_neg (h c (by simp))]
        exact ih (fun c' hc' => h c' (by simp [hc']))

theorem starsSeparated_of_no_star {b : List Char} (h : ∀ c ∈ b, c ≠ '*') :
    starsSeparated b = true := by
  induction b with
  | nil => rfl
  | cons c r ih =>
      rw [starsSeparated, if_neg (h c (by simp))]
      simpa using ih (fun c' hc' => h c' (by simp [hc']))

theorem starsSeparated_append_no_star {b t : List Char} (h : ∀ c ∈ b, c ≠ '*') :
    starsSeparated (b ++ t) = starsSeparated t := by
  induction b with
  | nil => rfl
  | cons c r ih =>
      rw [List.cons_append, starsSeparated, if_neg (h c (by simp))]
      simpa using ih (fun c' hc' => h c' (by simp [hc']))

theorem noStarLine_append_nl {b t : List Char} (h : ∀ c ∈ b, c ≠ '*' ∧ c ≠ '\n') :
    noStarLine (b ++ '\n' :: t) = true := by
  induction b with
  | nil => rfl
  | cons c r ih =>
      rw [List.cons_append, noStarLine, if_neg (h c (by simp)).2,
        if_neg (h c (by simp)).1]
      exact ih (fun c' hc' => h c' (by simp [hc']))

theorem starsSeparated_cons_star {r : List Char} (h : starsSeparated ('*' :: r) = true) :
    noStarLine r = true ∧ starsSeparated r = true := by
  rw [starsSeparated, if_pos rfl, Bool.and_eq_true] at h
  exact h

theorem starsSeparated_tail {c : Char} {r : List Char}
    (h : starsSeparated (c :: r) = true) : starsSeparated r = true := by
  rw [starsSeparated, Bool.and_eq_true] at h
  exact h.2

theorem starsSeparated_cons_other {c : Char} {r : List Char} (hc : c ≠ '*') :
    starsSeparated (c :: r) = starsSeparated r := by
  rw [starsSeparated, if_neg hc]
  simp

/-- The output of the single-star substitution always has its stars
separated: each line keeps at most one unpaired star. -/
theorem subStarGo_starsSeparated :
    ∀ (l : List Char) (acc : Option (List Char)),
      (∀ a, acc = some a → ∀ c ∈ a, c ≠ '*' ∧ c ≠ '\n') →
      starsSeparated (subStarGo acc l) = true := by
  intro l
  induction l with
  | nil =>
      intro acc hacc
      match acc with
      | none => rfl
      | some a =>
          rw [subStarGo, starsSeparated, if_pos rfl]
          have h1 : ∀ c ∈ a.reverse, c ≠ '*' := fun c hc =>
            (hacc a rfl c (List.mem_reverse.mp hc)).1
          rw [noStarLine_of_no_star h1, starsSeparated_of_no_star h1]
          rfl
  | cons c r ih =>
      intro acc hacc
      match acc with
      | none =>
          by_cases hc : c = '*'
          · subst hc
            exact ih (some []) (by simp)
          · rw [show subStarGo none (c :: r) = c :: subStarGo none r by
              simp [subStarGo, hc]]
            rw [starsSeparated_cons_other hc]
            exact ih none (by simp)
      | some a =>
          have hmem : ∀ c' ∈ a, c' ≠ '*' ∧ c' ≠ '\n' := hacc a rfl
          by_cases hnl : c = '\n'
          · subst hnl
            show starsSeparated ('*' :: a.reverse ++ '\n' :: subStarGo none r) = true
            have h1 : ∀ c' ∈ a.reverse, c' ≠ '*' := fun c' hc' =>
              (hmem c' (List.mem_reverse.mp hc')).1
            have h2 : ∀ c' ∈ a.reverse, c' ≠ '*' ∧ c' ≠ '\n' := fun c' hc' =>
              hmem c' (List.mem_reverse.mp hc')
            rw [show ('*' :: a.reverse ++ '\n' :: subStarGo none r) =
              '*' :: (a.reverse ++ '\n' :: subStarGo none r) by simp]
            rw [starsSeparated, if_pos rfl, noStarLine_append_nl h2,
              starsSeparated_append_no_star h1,
              starsSeparated_cons_other (by decide : ('\n' : Char) ≠ '*'),
              ih none (by simp)]
            rfl
          · by_cases hs : c = '*'
            · subst hs
              show starsSeparated (a.reverse ++ subStarGo none r) = true
              have h1 : ∀ c' ∈ a.reverse, c' ≠ '*' := fun c' hc' =>
                (hmem c' (List.mem_reverse.mp hc')).1
              rw [starsSeparated_append_no_star h1]
              exact ih none (by simp)
            · rw [show subStarGo (some a) (c :: r) = subStarGo (some (c :: a)) r by
                simp [subStarGo, hnl, hs]]
              refine ih (some (c :: a)) ?_
              intro a' ha' c' hc'
              cases ha'
              rcases List.mem_cons.mp hc' with h | h
              · subst h; exact ⟨hs, hnl⟩
              · exact hmem c' h

/-- Stars-separated text is a fixed point of the single-star scanner: the
opening star of any attempted match never finds a same-line closer. -/
theorem subStarGo_fixed :
    ∀ l : List Char,
      (starsSeparated l = true → subStarGo none l = l) ∧
      (noStarLine l = true → starsSeparated l = true →
        ∀ a, subStarGo (some a) l = '*' :: a.reverse ++ l) := by
  intro l
  induction l with
  | nil =>
      refine ⟨fun _ => rfl, fun _ _ a => ?_⟩
      rw [subStarGo]
      simp
  | cons c r ih =>
      constructor
      · intro h
        by_cases hc : c = '*'
        · subst hc
          obtain ⟨h1, h2⟩ := starsSeparated_cons_star h
          show subStarGo (some []) r = _
          rw [(ih).2 h1 h2 []]
          simp
        · rw [show subStarGo none (c :: r) = c :: subStarGo none r by
            simp [subStarGo, hc]]
          rw [(ih).1 (by rw [starsSeparated_cons_other hc] at h; exact h)]
      · intro hn hs a
        by_cases hnl : c = '\n'
        · subst hnl
          show '*' :: a.reverse ++ '\n' :: subStarGo none r = _
          rw [(ih).1 (starsSeparated_tail hs)]
        · by_cases hc : c = '*'
          · subst hc
            rw [noStarLine, if_neg (by decide : ¬('*' : Char) = '\n'), if_pos rfl] at hn
            exact absurd hn (by simp)
          · have hn' : noStarLine r = true := by
              rw [noStarLine, if_neg hnl, if_neg hc] at hn
              exact hn
            rw [show subStarGo (some a) (c :: r) = subStarGo (some (c :: a)) r by
              simp [subStarGo, hnl, hc]]
            rw [(ih).2 hn' (starsSeparated_tail hs) (c :: a)]
            simp

theorem subStar_starsSeparated (l : List Char) : starsSeparated (subStar l) = true :=
  subStarGo_starsSeparated l none (by simp)

theorem subStar_id {l : List Char} (h : starsSeparated l = true) : subStar l = l :=
  (subStarGo_fixed l).1 h

theorem starsSeparated_noDoubleStar :
    ∀ l : List Char, starsSeparated l = true → noDoubleStar l = true := by
  intro l
  induction l with
  | nil => intro _; rfl
  | cons c r ih =>
      intro h
      rw [noDoubleStar, Bool.and_eq_true]
      refine ⟨?_, ih (starsSeparated_tail h)⟩
      by_cases hc : c = '*'
      · subst hc
        match r with
        | [] => rfl
        | c2 :: r2 =>
            by_cases hc2 : c2 = '*'
            · subst hc2
              obtain ⟨h1, _⟩ := starsSeparated_cons_star h
              rw [noStarLine, if_neg (by decide : ¬('*' : Char) = '\n'), if_pos rfl] at h1
              exact absurd h1 (by simp)
            · simp [hc2]
      · simp [hc]

theorem noDoubleStar_tail {c : Char} {r : List Char}
    (h : noDoubleStar (c :: r) = true) : noDoubleStar r = true := by
  rw [noDoubleStar, Bool.and_eq_true] at h
  exact h.2

/-- Without adjacent stars the double-star scanner never opens a match. -/
theorem subBB_id : ∀ l : List Char, noDoubleStar l = true → subBB l = l := by
  intro l
  induction l with
  | nil => intro _; rfl
  | cons c r ih =>
      intro h
      show subBBGo none (c :: r) = c :: r
      have hr : subBBGo none r = r := ih (noDoubleStar_tail h)
      match r, hr with
      | [], _ =>
          by_cases hc : c = '*'
          · subst hc; rfl
          · simp [subBBGo, hc]
      | c2 :: r2, hr =>
          by_cases hc : c = '*'
          · subst hc
            by_cases hc2 : c2 = '*'
            · subst hc2
              rw [noDoubleStar] at h
              simp at h
            · rw [show subBBGo none ('*' :: c2 :: r2) = '*' :: subBBGo none (c2 :: r2) by
                simp [subBBGo, hc2]]
              rw [hr]
          · rw [show subBBGo none (c :: c2 :: r2) = c :: subBBGo none (c2 :: r2) by
              simp [subBBGo, hc]]
            rw [hr]

/-- Without adjacent stars the bold-prefix scanner never opens a match. -/
theorem subBC_id : ∀ l : List Char, noDoubleStar l = true → subBoldPrefix l = l := by
  intro l
  induction l with
  | nil => intro _; rfl
  | cons c r ih =>
      intro h
      show subBCGo .out (c :: r) = c :: r
      have hr : subBCGo .out r = r := ih (noDoubleStar_tail h)
      match r, hr with
      | [], _ =>
          by_cases hc : c = '*'
          · subst hc; rfl
          · simp [subBCGo, hc]
      | c2 :: r2, hr =>
          by_cases hc : c = '*'
          · subst hc
            by_cases hc2 : c2 = '*'
            · subst hc2
              rw [noDoubleStar] at h
              simp at h
            · rw [show subBCGo .out ('*' :: c2 :: r2) = '*' :: subBCGo .out (c2 :: r2) by
                simp [subBCGo, hc2]]
              rw [hr]
          · rw [show subBCGo .out (c :: c2 :: r2) = c :: subBCGo .out (c2 :: r2) by
              simp [subBCGo, hc]]
            rw [hr]

/-! Star separation survives character removal (as long as `'*'` and `'\n'`
are kept) and prefix/suffix truncation. -/

theorem noStarLine_filter (g : Char → Bool) (hnl : g '\n' = true) :
    ∀ l, noStarLine l = true → noStarLine (l.filter g) = true := by
  intro l
  induction l with
  | nil => intro _; rfl
  | cons c r ih =>
      intro h
      by_cases hn : c = '\n'
      · subst hn
        rw [List.filter_cons_of_pos hnl, noStarLine, if_pos rfl]
      · by_cases hs : c = '*'
        · subst hs
          rw [noStarLine, if_neg (by decide : ¬('*' : Char) = '\n'), if_pos rfl] at h
          exact absurd h (by simp)
        · rw [noStarLine, if_neg hn, if_neg hs] at h
          by_cases hg : g c = true
          · rw [List.filter_cons_of_pos hg, noStarLine, if_neg hn, if_neg hs]
            exact ih h
          · rw [List.filter_cons_of_neg (by simp [hg])]
            exact ih h

theorem starsSeparated_filter (g : Char → Bool) (hnl : g '\n' = true) :
    ∀ l, starsSeparated l = true → starsSeparated (l.filter g) = true := by
  intro l
  induction l with
  | nil => intro _; rfl
  | cons c r ih =>
      intro h
      rw [starsSeparated, Bool.and_eq_true] at h
      by_cases hg : g c = true
      · rw [List.filter_cons_of_pos hg, starsSeparated, Bool.and_eq_true]
        refine ⟨?_, ih h.2⟩
        by_cases hc : c = '*'
        · rw [if_pos hc]
          rw [if_pos hc] at h
          exact noStarLine_filter g hnl r h.1
        · rw [if_neg hc]
      · rw [List.filter_cons_of_neg (by simp [hg])]
        exact ih h.2

theorem noStarLine_append_left :
    ∀ a b : List Char, noStarLine (a ++ b) = true → noStarLine a = true := by
  intro a b
  induction a with
  | nil => intro _; rfl
  | cons c a' ih =>
      intro h
      rw [List.cons_append, noStarLine] at h
      rw [noStarLine]
      by_cases hn : c = '\n'
      · rw [if_pos hn]
      · rw [if_neg hn] at h ⊢
        by_cases hs : c = '*'
        · rw [if_pos hs] at h
          exact absurd h (by simp)
        · rw [if_neg hs] at h ⊢
          exact ih h

theorem starsSeparated_append_left :
    ∀ a b : List Char, starsSeparated (a ++ b) = true → starsSeparated a = true := by
  intro a b
  induction a with
  | nil => intro _; rfl
  | cons c a' ih =>
      intro h
      rw [List.cons_append, starsSeparated, Bool.and_eq_true] at h
      rw [starsSeparated, Bool.and_eq_true]
      refine ⟨?_, ih h.2⟩
      by_cases hc : c = '*'
      · rw [if_pos hc] at h ⊢
        exact noStarLine_append_left a' b h.1
      · rw [if_neg hc]

theorem starsSeparated_dropWhile (p : Char → Bool) :
    ∀ l, starsSeparated l = true → starsSeparated (l.dropWhile p) = true := by
  intro l
  induction l with
  | nil => intro _; rfl
  | cons c r ih =>
      intro h
      rw [List.dropWhile_cons]
      split
      · exact ih (starsSeparated_tail h)
      · exact h

theorem pyRStrip_decomp (l : List Char) :
    l = pyRStrip l ++ (l.reverse.takeWhile isPySpace).reverse := by
  unfold pyRStrip
  conv_lhs => rw [← List.reverse_reverse l,
    ← List.takeWhile_append_dropWhile (p := isPySpace) (l := l.reverse)]
  rw [List.reverse_append]

theorem starsSeparated_pyRStrip {l : List Char} (h : starsSeparated l = true) :
    starsSeparated (pyRStrip l) = true :=
  starsSeparated_append_left _ _ ((pyRStrip_decomp l) ▸ h)

theorem starsSeparated_pyStrip {l : List Char} (h : starsSeparated l = true) :
    starsSeparated (pyStrip l) = true :=
  starsSeparated_pyRStrip (starsSeparated_dropWhile isPySpace l h)

theorem mem_pyRStrip {c : Char} {l : List Char} (h : c ∈ pyRStrip l) : c ∈ l := by
  have h1 : c ∈ pyRStrip l ++ (l.reverse.takeWhile isPySpace).reverse :=
    List.mem_append.mpr (Or.inl h)
  rw [← pyRStrip_decomp l] at h1
  exact h1

theorem mem_pyStrip {c : Char} {l : List Char} (h : c ∈ pyStrip l) : c ∈ l := by
  have h1 : c ∈ l.dropWhile isPySpace := mem_pyRStrip h
  have h2 : c ∈ l.takeWhile isPySpace ++ l.dropWhile isPySpace :=
    List.mem_append.mpr (Or.inr h1)
  rw [List.takeWhile_append_dropWhile] at h2
  exact h2

theorem removeQuotes_no_quotes (l : List Char) :
    ∀ c ∈ removeQuotes l, c ≠ '《' ∧ c ≠ '》' := by
  intro c hc
  unfold removeQuotes at hc
  have h2 := List.mem_filter.mp hc
  have h1 := List.mem_filter.mp h2.1
  constructor
  · simpa using h1.2
  · simpa using h2.2

theorem removeQuotes_id {l : List Char} (h : ∀ c ∈ l, c ≠ '《' ∧ c ≠ '》') :
    removeQuotes l = l := by
  unfold removeQuotes
  have h1 : l.filter (fun c => !(c == '《')) = l :=
    List.filter_eq_self.mpr (fun a ha => by simpa using (h a ha).1)
  rw [h1]
  exact List.filter_eq_self.mpr (fun a ha => by simpa using (h a ha).2)

theorem length_dropWhile_le (p : Char → Bool) :
    ∀ l : List Char, (l.dropWhile p).length ≤ l.length := by
  intro l
  induction l with
  | nil => exact le_refl _
  | cons c r ih =>
      rw [List.dropWhile_cons]
      split
      · exact le_trans ih (by simp)
      · exact le_refl _

theorem dropWhile_idem (p : Char → Bool) :
    ∀ l : List Char, (l.dropWhile p).dropWhile p = l.dropWhile p := by
  intro l
  induction l with
  | nil => rfl
  | cons c r ih =>
      rw [List.dropWhile_cons]
      split
      · exact ih
      · rw [List.dropWhile_cons, if_neg (by assumption)]

theorem pyRStrip_idem (l : List Char) : pyRStrip (pyRStrip l) = pyRStrip l := by
  unfold pyRStrip
  rw [List.reverse_reverse, dropWhile_idem]

theorem pyStrip_idem (l : List Char) : pyStrip (pyStrip l) = pyStrip l := by
  show pyRStrip ((pyRStrip (l.dropWhile isPySpace)).dropWhile isPySpace) = _
  have hz : (l.dropWhile isPySpace).dropWhile isPySpace = l.dropWhile isPySpace :=
    dropWhile_idem isPySpace l
  have hdw : (pyRStrip (l.dropWhile isPySpace)).dropWhile isPySpace =
      pyRStrip (l.dropWhile isPySpace) := by
    match hy : pyRStrip (l.dropWhile isPySpace) with
    | [] => rfl
    | c :: t =>
        have hpre := pyRStrip_decomp (l.dropWhile isPySpace)
        rw [hy] at hpre
        have hnp : ¬ isPySpace c = true := by
          intro hp
          have h3 : (l.dropWhile isPySpace).dropWhile isPySpace = l.dropWhile isPySpace := hz
          rw [hpre, List.cons_append, List.dropWhile_cons, if_pos hp] at h3
          have h4 := congrArg List.length h3
          have h5 := length_dropWhile_le isPySpace
            (t ++ ((l.dropWhile isPySpace).reverse.takeWhile isPySpace).reverse)
          simp only [List.length_cons] at h4
          omega
        rw [List.dropWhile_cons, if_neg hnp]
  rw [hdw, pyRStrip_idem]
  rfl

/-- C8: `_clean_markdown_text` is idempotent — stripping the emphasis
markers, removing the `《`/`》` glyphs, collapsing the bold prefix, and
trimming whitespace a second time is a no-op: cleaned text has at most one
unpaired `'*'` per line (so none of the three substitutions can match
again), contains no quotation glyphs, and is already trimmed. -/
theorem clean_idempotent (l : List Char) : cleanText (cleanText l) = cleanText l := by
  have hPv : starsSeparated (removeQuotes (subStar (subBB l))) = true :=
    starsSeparated_filter _ (by decide) _
      (starsSeparated_filter _ (by decide) _ (subStar_starsSeparated (subBB l)))
  have hBC : subBoldPrefix (removeQuotes (subStar (subBB l))) =
      removeQuotes (subStar (subBB l)) :=
    subBC_id _ (starsSeparated_noDoubleStar _ hPv)
  have ht : cleanText l = pyStrip (removeQuotes (subStar (subBB l))) := by
    rw [cleanText, hBC]
  have hPt : starsSeparated (cleanText l) = true := by
    rw [ht]
    exact starsSeparated_pyStrip hPv
  have htq : ∀ c ∈ cleanText l, c ≠ '《' ∧ c ≠ '》' := by
    intro c hc
    rw [ht] at hc
    exact removeQuotes_no_quotes _ c (mem_pyStrip hc)
  conv_lhs => rw [cleanText]
  rw [subBB_id _ (starsSeparated_noDoubleStar _ hPt), subStar_id hPt,
    removeQuotes_id htq, subBC_id _ (starsSeparated_noDoubleStar _ hPt), ht]
  exact pyStrip_idem _

/-! ## Last-heading-level bookkeeping (C1)

The source resets `last_header_level` for every node-producing line that is
neither a heading nor a bullet line — i.e. for numbered list lines.  The
claim's "a numbered list line leaves it unchanged" is refuted below: after
`## H` and `1. a`, the zero-indent bullet `- b` is parsed at the default
level `0 // 2 + 2 = 2`, not `lastHeadingLevel + 1 = 3`. -/

/-- C1 (counterexample): on `"## H\n1. a\n- b"` the produced levels are
`[2, 2, 2]` — the final bullet does not receive
`lastHeadingLevel + 1 = 3`, because the numbered line reset the remembered
heading level. -/
theorem numbered_reset_counterexample :
    producedLevels "## H\n1. a\n- b".toList = [2, 2, 2] ∧
      (producedLevels "## H\n1. a\n- b".toList).getD 2 0 ≠ 2 + 1 := by
  decide

/-- C1 (amended): the `last heading level` is reset to `0` exactly by
node-producing numbered list lines (the node-producing lines that are
neither heading nor bullet lines); bullet lines leave it unchanged, heading
lines set it to their own level, and skipped lines change nothing.
Consequently, a zero-indent bullet line processed while the remembered
heading level is `0` (as after a numbered line) receives the default parse
level `0 / 2 + 2 = 2`, not `lastHeadingLevel + 1`. -/
theorem last_header_transitions (st : PState) (line : List Char) :
    (∀ ls c, classifyLine (pyRStrip line) = .numbered ls c → c ≠ [] →
        (lineStep st line).lastHeader = 0) ∧
    (∀ ls c, classifyLine (pyRStrip line) = .bullet ls c →
        (lineStep st line).lastHeader = st.lastHeader) ∧
    (∀ k c, classifyLine (pyRStrip line) = .header k c →
        (lineStep st line).lastHeader = k) ∧
    (classifyLine (pyRStrip line) = .skipLine → lineStep st line = st) ∧
    (∀ c, st.lastHeader = 0 → classifyLine (pyRStrip line) = .bullet 0 c → c ≠ [] →
        (lineStep st line).revProduced.head?.map (fun q => q.2) = some 2) := by
  refine ⟨?_, ?_, ?_, ?_, ?_⟩
  · intro ls c h hc
    unfold lineStep
    rw [h]
    simp only
    rw [if_neg hc]
    rfl
  · intro ls c h
    unfold lineStep
    rw [h]
    simp only
    by_cases hc : c = []
    · rw [if_pos hc]
    · rw [if_neg hc]
      rfl
  · intro k c h
    unfold lineStep
    rw [h]
    simp only
    by_cases hc : c = []
    · rw [if_pos hc]
    · rw [if_neg hc]
      rfl
  · intro h
    unfold lineStep
    rw [h]
  · intro c h0 h hc
    unfold lineStep
    rw [h]
    simp only
    rw [if_neg hc]
    simp [h0, pushNode]

theorem last_header_transitions_witness :
    (lineStep ⟨5, [], [], []⟩ "1. x".toList).lastHeader = 0 ∧
      (lineStep ⟨0, [], [], []⟩ "- b".toList).revProduced.head?.map (fun q => q.2) =
        some 2 :=
  ⟨(last_header_transitions ⟨5, [], [], []⟩ "1. x".toList).1 0 ['x'] (by decide) (by decide),
   (last_header_transitions ⟨0, [], [], []⟩ "- b".toList).2.2.2.2 ['b'] rfl (by decide)
     (by decide)⟩

/-! ## Horizontal column placement (C6) -/

theorem charWidthScore_nonneg (c : Char) : 0 ≤ charWidthScore c := by
  unfold charWidthScore
  split <;> norm_num

theorem widthScore_nonneg (l : List Char) : 0 ≤ widthScore l :=
  List.sum_nonneg (by
    intro q hq
    obtain ⟨c, _, rfl⟩ := List.mem_map.mp hq
    exact charWidthScore_nonneg c)

theorem estWidth_pos (l : List Char) (d : ℕ) : 0 < estWidth l d := by
  unfold estWidth
  have h1 : 0 ≤ widthScore l := widthScore_nonneg l
  have h2 : (3 / 5 : ℚ) ≤ depthScale d := le_max_right _ _
  nlinarith

/-- The fold of `max` over the placed children's stored `_width` values,
starting from `0` (the shape of the `max_child_width` loop). -/
def maxPlacedWidth (ps : List PlacedNode) : ℚ :=
  ps.foldl (fun m q => max m q.width) 0

theorem maxChildWidth_nonneg (cs : List MMNode) (d : ℕ) : 0 ≤ maxChildWidth cs d := by
  unfold maxChildWidth
  have h : ∀ (l : List MMNode) (init : ℚ), init ≤ l.foldl (fun m c => max m (estWidth c.label d)) init := by
    intro l
    induction l with
    | nil => intro init; exact le_refl _
    | cons c rest ih =>
        intro init
        exact le_trans (le_max_left _ _) (ih _)
  exact h cs 0

theorem assignCoords_x (n : MMNode) (x y : ℚ) (inh : String) (d : ℕ) :
    (assignCoords n x y inh d).x = x := by
  match n with
  | .mk lbl lvl cs => rw [assignCoords]; rfl

theorem assignCoords_width (n : MMNode) (x y : ℚ) (inh : String) (d : ℕ) :
    (assignCoords n x y inh d).width = estWidth n.label d := by
  match n with
  | .mk lbl lvl cs => rw [assignCoords]; rfl

/-- Every placed child produced by the children loop sits at the common
column abscissa `childX`. -/
theorem assignKids_x (childX : ℚ) (pc : String) (d : ℕ) :
    ∀ (cs : List MMNode) (curY : ℚ) (i : ℕ),
      ∀ q ∈ assignKids cs childX curY pc d i, q.x = childX := by
  intro cs
  induction cs with
  | nil => intro curY i q hq; rw [assignKids] at hq; exact absurd hq (List.not_mem_nil _)
  | cons c rest ih =>
      intro curY i q hq
      rw [assignKids] at hq
      rcases List.mem_cons.mp hq with h | h
      · rw [h]; exact assignCoords_x _ _ _ _ _
      · exact ih _ _ q h

/-- The placed children's stored widths fold to the same `max_child_width`
that the parent used, since each stored width is the child's estimate at
depth `d + 1`. -/
theorem assignKids_maxWidth (childX : ℚ) (pc : String) (d : ℕ) :
    ∀ (cs : List MMNode) (curY : ℚ) (i : ℕ) (init : ℚ),
      (assignKids cs childX curY pc d i).foldl (fun m q => max m q.width) init =
        cs.foldl (fun m c => max m (estWidth c.label (d + 1))) init := by
  intro cs
  induction cs with
  | nil => intro curY i init; rw [assignKids]; rfl
  | cons c rest ih =>
      intro curY i init
      rw [assignKids]
      simp only [List.foldl_cons, assignCoords_width]
      exact ih _ _ _

/-- Membership in the flattened children forest factors through one child
subtree. -/
theorem mem_placedNodesList :
    ∀ (ps : List PlacedNode) (q : PlacedNode), q ∈ placedNodesList ps →
      ∃ r ∈ ps, q ∈ placedNodes r := by
  intro ps
  induction ps with
  | nil => intro q hq; rw [placedNodesList] at hq; exact absurd hq (List.not_mem_nil _)
  | cons r rest ih =>
      intro q hq
      rw [placedNodesList] at hq
      rcases List.mem_append.mp hq with h | h
      · exact ⟨r, by simp, h⟩
      · obtain ⟨r', hr', hq'⟩ := ih q h
        exact ⟨r', by simp [hr'], hq'⟩

/-- Each placed child of the children loop is `assignCoords` of a source
child at depth `d + 1` and column `childX`. -/
theorem assignKids_members (childX : ℚ) (pc : String) (d : ℕ) :
    ∀ (cs : List MMNode) (curY : ℚ) (i : ℕ),
      ∀ r ∈ assignKids cs childX curY pc d i,
        ∃ c ∈ cs, ∃ y' inh', r = assignCoords c childX y' inh' (d + 1) := by
  intro cs
  induction cs with
  | nil => intro curY i r hr; rw [assignKids] at hr; exact absurd hr (List.not_mem_nil _)
  | cons c rest ih =>
      intro curY i r hr
      rw [assignKids] at hr
      rcases List.mem_cons.mp hr with h | h
      · exact ⟨c, by simp, _, _, h⟩
      · obtain ⟨c', hc', y', inh', he⟩ := ih _ _ r h
        exact ⟨c', by simp [hc'], y', inh', he⟩

/-- C6: in the horizontal layout, every child of every placed node sits at
`parentX + parentWidth/2 + 2.0 + maxChildWidth/2`, where `maxChildWidth` is
the fold of `max` over all of that parent's children's estimated widths; all
children of one parent therefore share one x column, and `x(child) >
x(parent)` holds strictly. -/
theorem horizontal_child_column (t : MMNode) (x y : ℚ) (inh : String) (d : ℕ) :
    ∀ p ∈ placedNodes (assignCoords t x y inh d), ∀ c ∈ p.children,
      c.x = p.x + p.width / 2 + 2 + maxPlacedWidth p.children / 2 ∧ p.x < c.x := by
  induction t using mmInduction generalizing x y inh d with
  | _ lbl lvl cs ih =>
      intro p hp c hc
      rw [assignCoords] at hp
      rw [placedNodes] at hp
      rcases List.mem_cons.mp hp with hroot | hdeep
      · -- `p` is this subtree's root: its children all sit at the shared column.
        subst hroot
        have hx := assignKids_x (x + estWidth lbl d / 2 + 2 + maxChildWidth cs (d + 1) / 2)
          (if d = 1 then rootColor else inh) d cs
          (y + totalChildrenHeight cs / 2) 0 c hc
        have hmw : maxPlacedWidth (PlacedNode.children (PlacedNode.mk x y d
            (if d = 1 then rootColor else inh) (estWidth lbl d) lbl
            (assignKids cs (x + estWidth lbl d / 2 + 2 + maxChildWidth cs (d + 1) / 2)
              (y + totalChildrenHeight cs / 2) (if d = 1 then rootColor else inh) d 0))) =
            maxChildWidth cs (d + 1) := by
          show maxPlacedWidth (assignKids cs _ _ _ d 0) = _
          unfold maxPlacedWidth maxChildWidth
          exact assignKids_maxWidth _ _ d cs _ 0 0
        constructor
        · rw [hmw]
          exact hx
        · rw [hx]
          have h1 := estWidth_pos lbl d
          have h2 := maxChildWidth_nonneg cs (d + 1)
          show PlacedNode.x (.mk x y d _ _ lbl _) < _
          unfold PlacedNode.x
          linarith
      · -- `p` lies in one child's subtree; use the inductive hypothesis.
        obtain ⟨r, hr, hqr⟩ := mem_placedNodesList _ p hdeep
        obtain ⟨c0, hc0, y', inh', he⟩ := assignKids_members _ _ d cs _ 0 r hr
        subst he
        exact ih c0 hc0 _ y' inh' (d + 1) p hqr c hc

theorem horizontal_child_column_witness :
    ((assignCoords (.mk ['a'] 1 [.mk ['b'] 2 []]) 0 0 rootColor 1).children.headD
        (assignCoords (.mk ['b'] 2 []) 0 0 rootColor 2)).x >
      (assignCoords (.mk ['a'] 1 [.mk ['b'] 2 []]) 0 0 rootColor 1).x :=
  (horizontal_child_column (.mk ['a'] 1 [.mk ['b'] 2 []]) 0 0 rootColor 1
    (assignCoords (.mk ['a'] 1 [.mk ['b'] 2 []]) 0 0 rootColor 1)
    (List.Mem.head _)
    ((assignCoords (.mk ['a'] 1 [.mk ['b'] 2 []]) 0 0 rootColor 1).children.headD
        (assignCoords (.mk ['b'] 2 []) 0 0 rootColor 2))
    (List.Mem.head _)).2

/-! ## Parser totality and root handling (C7) -/

/-- C7: the outline parser always returns exactly one root node: with no
root candidates (e.g. the empty string) the default single `Mind Map` node
of level 1 with no children, with exactly one candidate that candidate
unchanged, and with several candidates a `Mind Map` wrapper of level 1
holding them in source order. -/
theorem parser_single_root :
    (∀ s, parseMarkdownToTree s =
      match rootCands s with
      | [] => defaultRoot
      | [n] => n
      | ns => .mk mindMapLabel 1 ns) ∧
    parseMarkdownToTree [] = defaultRoot ∧
    defaultRoot = .mk mindMapLabel 1 [] := by
  refine ⟨?_, rfl, rfl⟩
  intro s
  simp only [parseMarkdownToTree]
  match h : rootCands s with
  | [] => simp
  | [n] => simp
  | a :: b :: t => simp

/-! ## Determinism (C9) -/

/-- C9: with the text-metrics oracle held fixed, the parse → annotate →
layout pipeline is a pure function: identical outline text and layout kind
give identical placed output (coordinates, depths, angular weights, colors);
there is no randomness anywhere.  (The source's `parent_radius_map`, keyed
by `id(node)`, is written but never read, so object addresses cannot
influence the output.) -/
theorem pipeline_deterministic (m1 m2 : Measure) (k : LayoutKind) (s1 s2 : List Char)
    (hs : s1 = s2) (hm : ∀ l d, m1 l d = m2 l d) :
    runPipeline m1 k s1 = runPipeline m2 k s2 := by
  have hmeq : m1 = m2 := funext fun l => funext fun d => hm l d
  rw [hmeq, hs]

theorem pipeline_deterministic_witness :
    runPipeline (fun _ _ => (0, 0)) .horizontal ['x'] =
      runPipeline (fun _ _ => (0, 0)) .horizontal ['x'] :=
  pipeline_deterministic _ _ .horizontal ['x'] ['x'] rfl (fun _ _ => rfl)

/-! ## The zero-nodes failure branch is unreachable (C10) -/

theorem layoutKids_nodes_ext (m : Measure) (cs : List MMNode)
    (H : ∀ c ∈ cs, ∀ p st, ∃ tl, (layoutRec m c p st).nodes = st.nodes ++ tl) :
    ∀ x y cur range total d inh r size i st,
      ∃ ext, (layoutKids m cs x y cur range total d inh r size i st).nodes =
        st.nodes ++ ext := by
  induction cs with
  | nil => intro x y cur range total d inh r size i st; exact ⟨[], by simp [layoutKids]⟩
  | cons c rest ih =>
      intro x y cur range total d inh r size i st
      rw [layoutKids]
      obtain ⟨tl1, h1⟩ := H c (by simp) _ st
      obtain ⟨ext2, h2⟩ := ih (fun c' hc' => H c' (by simp [hc'])) x y _ range total d inh r size (i + 1) _
      exact ⟨tl1 ++ ext2, by rw [h2, h1, List.append_assoc]⟩

theorem placeNode_nodes (m : Measure) (lbl : List Char) (p : RParams) (st : RState) :
    (placeNode m lbl p st).2.1.nodes = st.nodes ++ [(placeNode m lbl p st).1] := by
  unfold placeNode
  split <;> rfl

theorem placeNode_root (m : Measure) (lbl : List Char) (p : RParams) (st : RState)
    (h : p.depth = 1) :
    (placeNode m lbl p st).1.x = 0 ∧ (placeNode m lbl p st).1.y = 0 ∧
      (placeNode m lbl p st).1.depth = 1 := by
  unfold placeNode
  rw [if_pos h]
  exact ⟨rfl, rfl, h⟩

theorem layoutRec_nodes_ext (m : Measure) :
    ∀ (n : MMNode) (p : RParams) (st : RState),
      ∃ info tl, (layoutRec m n p st).nodes = st.nodes ++ info :: tl ∧
        (p.depth = 1 → info.x = 0 ∧ info.y = 0 ∧ info.depth = 1) := by
  refine mmInduction _ ?_
  intro lbl lvl cs ih p st
  have H : ∀ c ∈ cs, ∀ p' st', ∃ tl, (layoutRec m c p' st').nodes = st'.nodes ++ tl := by
    intro c hc p' st'
    obtain ⟨info, tl, h, _⟩ := ih c hc p' st'
    exact ⟨info :: tl, h⟩
  rw [layoutRec]
  obtain ⟨ext, hext⟩ := layoutKids_nodes_ext m cs H (placeNode m lbl p st).1.x
    (placeNode m lbl p st).1.y p.startAngle (p.endAngle - p.startAngle) (weightSum cs)
    p.depth (placeNode m lbl p st).1.color (placeNode m lbl p st).2.2
    (some (m lbl p.depth)) 0 (placeNode m lbl p st).2.1
  refine ⟨(placeNode m lbl p st).1, ext, ?_, fun h1 => placeNode_root m lbl p st h1⟩
  rw [hext, placeNode_nodes, List.append_assoc]
  rfl

/-- C10: the radial engine unconditionally places the root at `(0, 0)` and
appends it to `layout_nodes` before anything else, so the laid-out node list
is never empty and the `if not layout_nodes: return False` branch of
`_generate_png_mindmap` can never be taken. -/
theorem radial_zero_nodes_unreachable (m : Measure) (t : MMNode) :
    zeroNodesFailure m t = false ∧
    (radialLayoutNodes m t).head?.map (fun i => (i.x, i.y, i.depth)) =
      some ((0 : ℝ), (0 : ℝ), 1) := by
  obtain ⟨info, tl, hn, hroot⟩ :=
    layoutRec_nodes_ext m t ⟨0, 0, 0, 2 * Real.pi, 1, rootColor, 0, none⟩ ⟨[], [], fun _ => 0⟩
  have h1 : radialLayoutNodes m t = info :: tl := by
    unfold radialLayoutNodes
    rw [hn]
    rfl
  obtain ⟨hx, hy, hdep⟩ := hroot rfl
  constructor
  · unfold zeroNodesFailure
    rw [h1]
    rfl
  · rw [h1]
    simp [hx, hy, hdep]

theorem radial_child_outward_witness :
    originDist (polarPos 0 0) <
      originDist (polarPos
        (testRadius (getMinRadiusForDepth (fun _ => 0) 2 0 none none).1 2 0) 0) :=
  (radial_child_outward (fun _ => 0) 2 0 0 none none 0 0 (by norm_num) (le_refl 0)).1

theorem horizontal_height_invariant_witness :
    1 ≤ subtreeHeight (.mk ['p'] 1 [.mk ['c'] 2 [], .mk ['d'] 2 []]) ∧
      subtreeHeight (.mk ['p'] 1 [.mk ['c'] 2 [], .mk ['d'] 2 []]) =
        max 1 ((([MMNode.mk ['c'] 2 [], .mk ['d'] 2 []]).map subtreeHeight).sum +
          hGap * ((([MMNode.mk ['c'] 2 [], .mk ['d'] 2 []] : List MMNode).length : ℚ) - 1)) :=
  ⟨(horizontal_height_invariant _).1,
   (horizontal_height_invariant (.mk ['p'] 1 [.mk ['c'] 2 [], .mk ['d'] 2 []])).2.2
     (List.cons_ne_nil _ _)⟩

end MindMap
